import Mathlib

/-!
Verification of the Eisenberg-Noe contagion clearing solvers of
`eisenberg_noes_contagion_sparse.py`.

The development is a shallow embedding over exact rational arithmetic:
vectors are functions `Fin n → ℚ` and the sparse matrices of the source are
value matrices `Fin n → Fin n → ℚ` (sparsity is a storage concern only and
does not change any computed value).  The two external numerical routines
used by the source are modelled explicitly:

* `scipy.optimize.fixed_point` repeatedly applies the given map to the
  initial guess until convergence; it is modelled by `iterSolver k`, which
  applies the map `k` times.  Where a property needs the fully converged
  value, the theorem carries the hypothesis that the returned vector is an
  exact fixed point of the map that was being iterated.
* `scipy.optimize.linprog` is modelled as an abstract backend returning an
  `LPResult` (solution vector `x` plus integer `status`), with LP optimality
  stated as an explicit predicate on the returned vector.

The outer `while` loop of `clearing_p` is translated with an explicit fuel
parameter; an exhausted fuel (`none`) corresponds to the Python loop still
running after that many iterations.
-/

namespace EN

attribute [local semireducible] Rat.add Rat.mul Rat.inv Rat.sub

/-- Length-`n` vectors of exact rationals (1-D numpy arrays in the source). -/
abbrev Vec (n : ℕ) := Fin n → ℚ

/-- `n × n` matrices (sparse scipy matrices in the source). -/
abbrev Mat (n : ℕ) := Fin n → Fin n → ℚ

variable {n : ℕ}

/-- `calc_p_bar(L)`: the row sums of the liability matrix `L`
(`L.sum(axis=1)` flattened to a vector). -/
def calc_p_bar (L : Mat n) : Vec n := fun i => ∑ j, L i j

/-- `calc_Pi(L)`: row-proportional weighting of `L`.  Row `i` is
`L[i,:] / p_bar[i]` when `p_bar[i] != 0` and stays all zero otherwise. -/
def calc_Pi (L : Mat n) : Mat n := fun i j =>
  if calc_p_bar L i ≠ 0 then L i j / calc_p_bar L i else 0

/-- `Pi.transpose() * p`: the inflow each node receives under trial payments
`p`. -/
def PiT_mul (Pi : Mat n) (p : Vec n) : Vec n := fun i => ∑ j, Pi j i * p j

/-- `Phi(p, Pi, p_bar, e) = np.minimum(Pi^T * p + e, p_bar)`: total funds
available for debt obligations. -/
def Phi (p : Vec n) (Pi : Mat n) (p_bar e : Vec n) : Vec n :=
  fun i => min (PiT_mul Pi p i + e i) (p_bar i)

/-- `next_default_ind(p, Pi, p_bar, e)`: the next default indicator vector,
`D[i] = 1` exactly when `p_bar[i] > Phi(p,...)[i]`, else `0`. -/
def next_default_ind (p : Vec n) (Pi : Mat n) (p_bar e : Vec n) : Vec n :=
  fun i => if p_bar i > Phi p Pi p_bar e i then 1 else 0

/-- `FF(p, p_0, Pi, Lambda, e, p_bar)`: the map iterated by the inner
fixed-point solve,
`Lam*(Pi^T*(Lam*p + (I-Lam)*p_bar) + e) + (I-Lam)*p_bar`,
where `Lambda` is the diagonal of the default indicator.  The `p_0`
argument is accepted but unused, exactly as in the source. -/
def FF (p p_0 : Vec n) (Pi : Mat n) (Lambda : Vec n) (e p_bar : Vec n) : Vec n :=
  fun i =>
    Lambda i * (PiT_mul Pi (fun j => Lambda j * p j + (1 - Lambda j) * p_bar j) i + e i)
      + (1 - Lambda i) * p_bar i

/-- Model of `scipy.optimize.fixed_point`: apply the map `k` times to the
initial guess (the solver's iterate-until-convergence behaviour, with the
number of iterations made explicit). -/
def iterSolver (k : ℕ) (F : Vec n → Vec n) (p0 : Vec n) : Vec n := F^[k] p0

/-- `next_p(p_0, D_0, Pi, e, p_bar)`, parameterised by the inner fixed-point
routine `fp` standing for `optimize.fixed_point`: build `Lambda = diag(D_0)`,
solve `p_1 = fp(FF, p_0)` and recompute the default indicator at `p_1`. -/
def next_p (fp : (Vec n → Vec n) → Vec n → Vec n) (p_0 D_0 : Vec n) (Pi : Mat n)
    (e p_bar : Vec n) : Vec n × Vec n :=
  let p_1 := fp (fun p => FF p p_0 Pi D_0 e p_bar) p_0
  (p_1, next_default_ind p_1 Pi p_bar e)

/-- The `while list(D_1) != list(D_0)` loop of `clearing_p`, with explicit
fuel: at each step compute `(p_1, D_1) = next_p(p_0, D_0, ...)`, stop when
`D_1 = D_0`, otherwise continue from `(p_1, D_1)`.  `none` means the Python
loop would still be running after `fuel` iterations. -/
def clearing_loop (fp : (Vec n → Vec n) → Vec n → Vec n) (Pi : Mat n) (e p_bar : Vec n) :
    ℕ → Vec n → Vec n → Option (Vec n × Vec n)
  | 0, _, _ => none
  | fuel + 1, p_0, D_0 =>
    let pd := next_p fp p_0 D_0 Pi e p_bar
    if pd.2 = D_0 then some pd else clearing_loop fp Pi e p_bar fuel pd.1 pd.2

/-- `clearing_p(L, e)`: derive `p_bar` and `Pi`, start from the optimistic
payment `p_0 = p_bar` and its default indicator, and run the outer loop. -/
def clearing_p (fp : (Vec n → Vec n) → Vec n → Vec n) (fuel : ℕ) (L : Mat n) (e : Vec n) :
    Option (Vec n × Vec n) :=
  let p_bar := calc_p_bar L
  let Pi := calc_Pi L
  let p_0 := p_bar
  let D_0 := next_default_ind p_0 Pi p_bar e
  clearing_loop fp Pi e p_bar fuel p_0 D_0

/-- The scipy `OptimizeResult` as consumed by `clearing_p_LP`: the solution
array `x` and the integer solver `status` (`0` success, `2` infeasible,
`3` unbounded). -/
structure LPResult (n : ℕ) where
  x : Vec n
  status : ℕ

/-- The upper-bound constraint matrix `A = (I - Pi.transpose())` built by
`clearing_p_LP`. -/
def LP_A (Pi : Mat n) : Mat n := fun i j => (if i = j then (1 : ℚ) else 0) - Pi j i

/-- An LP backend standing for `optimize.linprog`: objective coefficients,
`A_ub`, `b_ub` and the `(lower, upper)` bound vectors, producing an
`LPResult`. -/
abbrev LPSolver (n : ℕ) := Vec n → Mat n → Vec n → Vec n × Vec n → LPResult n

/-- `clearing_p_LP(L, e)`: build the LP (`obj = -1`, `A_ub = I - Pi^T`,
`b_ub = e`, bounds `(0, p_bar[i])`), call the backend, and return
`(res.x, next_default_ind(res.x, ...))`.  As in the source, only `res.x` is
read; `res.status` is never inspected. -/
def clearing_p_LP (lp : LPSolver n) (L : Mat n) (e : Vec n) : Vec n × Vec n :=
  let p_bar := calc_p_bar L
  let Pi := calc_Pi L
  let obj_coeff : Vec n := fun _ => -1
  let A := LP_A Pi
  let bnds := ((fun _ => 0 : Vec n), p_bar)
  let res := lp obj_coeff A e bnds
  (res.x, next_default_ind res.x Pi p_bar e)

/-- A backend that reports status `2` (infeasible, in scipy's encoding) on
every call while still filling in a solution array, as scipy's result object
does. -/
def lpInfeasibleBackend : LPSolver 1 := fun _ _ _ _ => ⟨fun _ => 0, 2⟩

/-- Feasibility for the LP that `clearing_p_LP` builds: within the bounds
`0 ≤ x ≤ p_bar` and satisfying `A_ub · x ≤ b_ub`. -/
def LP_feasible (Pi : Mat n) (p_bar e x : Vec n) : Prop :=
  ∀ i, 0 ≤ x i ∧ x i ≤ p_bar i ∧ ∑ j, LP_A Pi i j * x j ≤ e i

/-- LP optimality for objective `-1ᵀx` (minimised), i.e. `x` is feasible and
maximises total payments among feasible vectors. -/
def LP_optimal (Pi : Mat n) (p_bar e x : Vec n) : Prop :=
  LP_feasible Pi p_bar e x ∧ ∀ y, LP_feasible Pi p_bar e y → ∑ i, y i ≤ ∑ i, x i

/-- A clearing payment vector in the Eisenberg-Noe sense: within the
obligation box and a fixed point of the available-funds map. -/
def isClearingVec (Pi : Mat n) (p_bar e q : Vec n) : Prop :=
  (∀ i, 0 ≤ q i ∧ q i ≤ p_bar i) ∧ ∀ i, q i = min (PiT_mul Pi q i + e i) (p_bar i)

/-- The inner map with the default indicator frozen, as a function of the
payment vector only (`FF` ignores its `p_0` argument). -/
def FFm (Pi : Mat n) (D e p_bar : Vec n) : Vec n → Vec n := fun p => FF p p Pi D e p_bar

/-- A vector is 0/1-valued. -/
def boolVec (D : Vec n) : Prop := ∀ i, D i = 0 ∨ D i = 1

/-- Invariant maintained by the outer loop of `clearing_p` when the inner
solve is the iteration of `FF`: the default indicator is 0/1-valued,
non-defaulting coordinates sit at `p_bar`, the frozen map does not increase
the current payment vector, and the indicator is the oracle's output at the
current payment vector. -/
structure LoopInv (Pi : Mat n) (e p_bar p D : Vec n) : Prop where
  bool : boolVec D
  fullpay : ∀ i, D i = 0 → p i = p_bar i
  dec : ∀ i, FFm Pi D e p_bar p i ≤ p i
  ddef : D = next_default_ind p Pi p_bar e

/-- Number of flagged (value `1`) coordinates of a default indicator. -/
def onesCount (D : Vec n) : ℕ := (Finset.univ.filter fun i => D i = 1).card

instance (priority := 2000) decEqProdVec : DecidableEq (Vec n × Vec n) := fun a b =>
  decidable_of_iff (a.1 = b.1 ∧ a.2 = b.2) Prod.ext_iff.symm

instance (priority := 2000) decEqOptionProdVec : DecidableEq (Option (Vec n × Vec n)) :=
  fun a b =>
  match a, b with
  | none, none => isTrue rfl
  | some _, none => isFalse (fun h => Option.noConfusion h)
  | none, some _ => isFalse (fun h => Option.noConfusion h)
  | some x, some y => decidable_of_iff (x = y) ⟨fun h => h ▸ rfl, fun h => Option.some.inj h⟩

/-! ## Basic properties of the default-set oracle -/

theorem ndi_one_iff (p : Vec n) (Pi : Mat n) (p_bar e : Vec n) (i : Fin n) :
    next_default_ind p Pi p_bar e i = 1 ↔ Phi p Pi p_bar e i < p_bar i := by
  unfold next_default_ind
  by_cases h : p_bar i > Phi p Pi p_bar e i <;> simp [h]

theorem ndi_zero_iff (p : Vec n) (Pi : Mat n) (p_bar e : Vec n) (i : Fin n) :
    next_default_ind p Pi p_bar e i = 0 ↔ p_bar i ≤ Phi p Pi p_bar e i := by
  unfold next_default_ind
  by_cases h : p_bar i > Phi p Pi p_bar e i
  · rw [if_pos h]
    exact ⟨fun h1 => absurd h1 one_ne_zero, fun hle => absurd h (not_lt.mpr hle)⟩
  · rw [if_neg h]
    exact ⟨fun _ => not_lt.mp h, fun _ => rfl⟩

theorem ndi_bool (p : Vec n) (Pi : Mat n) (p_bar e : Vec n) :
    boolVec (next_default_ind p Pi p_bar e) := by
  intro i
  unfold next_default_ind
  by_cases h : p_bar i > Phi p Pi p_bar e i <;> simp [h]

/-- C2: the Default-Set Oracle returns `D` with `D[i] = 1` iff
`p_bar[i] > min((Πᵀp)[i] + e[i], p_bar[i])` and `D[i] = 0` otherwise; the
comparison is the exact strict order on ℚ, with no tolerance. -/
theorem next_default_ind_spec (p : Vec n) (Pi : Mat n) (p_bar e : Vec n) (i : Fin n) :
    (next_default_ind p Pi p_bar e i = 1 ↔
      p_bar i > min (PiT_mul Pi p i + e i) (p_bar i)) ∧
    (next_default_ind p Pi p_bar e i = 0 ↔
      ¬ p_bar i > min (PiT_mul Pi p i + e i) (p_bar i)) := by
  unfold next_default_ind Phi
  by_cases h : p_bar i > min (PiT_mul Pi p i + e i) (p_bar i) <;> simp [h]

/-- C9: a node with zero total obligation is flagged as defaulting exactly
when its net available funds `(Πᵀp)[i] + e[i]` are negative. -/
theorem zero_obligation_default_iff (p : Vec n) (Pi : Mat n) (p_bar e : Vec n) (i : Fin n)
    (h : p_bar i = 0) :
    next_default_ind p Pi p_bar e i = 1 ↔ PiT_mul Pi p i + e i < 0 := by
  unfold next_default_ind Phi
  rw [h]
  by_cases hc : PiT_mul Pi p i + e i < 0
  · simp [min_eq_left hc.le, hc]
  · simp [min_eq_right (not_lt.mp hc), hc]

/-- Witness for C9 at a concrete instance: one node owing nothing, with
external assets `-1`, is reported in default. -/
theorem zero_obligation_default_iff_witness :
    next_default_ind (fun _ => 0) (fun _ _ => 0) (fun _ => 0) (fun _ => -1) (0 : Fin 1) = 1 ↔
      PiT_mul (fun _ _ => 0) (fun _ => 0) (0 : Fin 1) + (-1 : ℚ) < 0 :=
  zero_obligation_default_iff (fun _ => 0) (fun _ _ => 0) (fun _ => 0) (fun _ => -1) 0 rfl

theorem PiT_mul_mono (Pi : Mat n) (p q : Vec n) (hPi : ∀ i j, 0 ≤ Pi i j)
    (hpq : ∀ j, p j ≤ q j) (i : Fin n) : PiT_mul Pi p i ≤ PiT_mul Pi q i :=
  Finset.sum_le_sum fun j _ => mul_le_mul_of_nonneg_left (hpq j) (hPi j i)

theorem Phi_mono (Pi : Mat n) (p_bar e p q : Vec n) (hPi : ∀ i j, 0 ≤ Pi i j)
    (hpq : ∀ j, p j ≤ q j) (i : Fin n) :
    Phi p Pi p_bar e i ≤ Phi q Pi p_bar e i := by
  unfold Phi
  exact min_le_min (add_le_add_right (PiT_mul_mono Pi p q hPi hpq i) (e i)) le_rfl

/-- C10: the available-funds map `Phi` is monotone in the payment vector for
entrywise non-negative `Pi`. -/
theorem Phi_monotone_in_p (Pi : Mat n) (p_bar e p q : Vec n) (hPi : ∀ i j, 0 ≤ Pi i j)
    (hpq : ∀ j, p j ≤ q j) (i : Fin n) :
    Phi p Pi p_bar e i ≤ Phi q Pi p_bar e i :=
  Phi_mono Pi p_bar e p q hPi hpq i

/-- Witness for C10 at a concrete instance. -/
theorem Phi_monotone_in_p_witness :
    Phi (fun _ => 0) (fun _ _ => 1) (fun _ => 5) (fun _ => 0) (0 : Fin 1) ≤
      Phi (fun _ => 1) (fun _ _ => 1) (fun _ => 5) (fun _ => 0) (0 : Fin 1) :=
  Phi_monotone_in_p (fun _ _ => 1) (fun _ => 5) (fun _ => 0) (fun _ => 0) (fun _ => 1)
    (fun _ _ => (by decide : (0 : ℚ) ≤ 1)) (fun _ => (by decide : (0 : ℚ) ≤ 1)) 0

/-! ## Error-handling behaviour (C5, C6) -/

/-- Counterexample for C5: on the malformed input `L = [[-1]]` (negative
entry), `e = [0]`, `clearing_p` does not reject; it runs the solve and
returns a result. -/
theorem clearing_p_no_rejection_cex :
    (clearing_p (iterSolver 1) 1 ((fun _ _ => -1) : Mat 1) (fun _ => 0)).isSome = true := by
  decide

/-- C5 (amended): `clearing_p` performs no input validation; on the
negative-entry matrix `L = [[-1]]` it completes the solve and returns the
(invalid) payment `p = [-1]` with default vector `D = [0]`. -/
theorem clearing_p_negative_L_runs :
    clearing_p (iterSolver 1) 1 ((fun _ _ => -1) : Mat 1) (fun _ => 0)
      = some (fun _ => -1, fun _ => 0) := by
  decide

/-- Counterexample for C6: a backend reporting status `2` (infeasible) on the
very call `clearing_p_LP` makes still produces a fully-formed `(p, D)` pair;
the failure status is silently dropped. -/
theorem clearing_p_LP_infeasible_cex :
    clearing_p_LP lpInfeasibleBackend (fun _ _ => 0) (fun _ => 0)
        = ((fun _ => 0 : Vec 1), (fun _ => 0 : Vec 1)) ∧
      (lpInfeasibleBackend (fun _ => -1) (LP_A (calc_Pi (fun _ _ => 0))) (fun _ => 0)
        ((fun _ => 0), calc_p_bar (fun _ _ => 0))).status = 2 := by
  constructor
  · decide
  · rfl

/-- C6 (amended): `clearing_p_LP` never inspects the backend's status; its
output is a function of `res.x` alone, so any two statuses (e.g. success and
infeasible) with the same solution array give identical results. -/
theorem clearing_p_LP_ignores_status (L : Mat n) (e x : Vec n) (s s' : ℕ) :
    clearing_p_LP (fun _ _ _ _ => ⟨x, s⟩) L e
      = clearing_p_LP (fun _ _ _ _ => ⟨x, s'⟩) L e := rfl

/-- Counterexample for C7: with `L` all zero and the negative asset vector
`e = [-2]`, `clearing_p` returns `p = [-2]` and `D = [1]`, not the all-zero
pair the claim asserts for arbitrary `e`. -/
theorem clearing_p_zero_L_negative_e_cex :
    clearing_p (iterSolver 1) 1 ((fun _ _ => 0) : Mat 1) (fun _ => -2)
        = some (fun _ => -2, fun _ => 1) ∧ ((-2 : ℚ) ≠ 0 ∧ (1 : ℚ) ≠ 0) := by
  constructor
  · decide
  · constructor <;> decide

/-- Counterexample for C1: on the well-formed input `L = [[0]]` (non-negative),
`e = [-1]`, `clearing_p` returns the pair `p = [-1]`, `D = [1]` — violating
`0 ≤ p[i]` — and the returned `p` is an exact fixed point of the final inner
map, so the violation is not an artefact of truncated inner iteration. -/
theorem clearing_p_negative_payment_cex :
    clearing_p (iterSolver 1) 1 ((fun _ _ => 0) : Mat 1) (fun _ => -1)
        = some (fun _ => -1, fun _ => 1) ∧
      FF (fun _ => -1) (fun _ => -1) (calc_Pi ((fun _ _ => 0) : Mat 1)) (fun _ => 1)
          (fun _ => -1) (calc_p_bar ((fun _ _ => 0) : Mat 1)) = (fun _ => -1) ∧
      ((-1 : ℚ) < 0) := by
  refine ⟨by decide, by decide, by decide⟩

/-! ## Structure of the outer loop -/

theorem next_p_eq (fp : (Vec n → Vec n) → Vec n → Vec n) (p_0 D_0 : Vec n) (Pi : Mat n)
    (e p_bar : Vec n) :
    next_p fp p_0 D_0 Pi e p_bar
      = (fp (FFm Pi D_0 e p_bar) p_0,
         next_default_ind (fp (FFm Pi D_0 e p_bar) p_0) Pi p_bar e) := rfl

theorem clearing_loop_ndi (fp : (Vec n → Vec n) → Vec n → Vec n) (Pi : Mat n)
    (e p_bar : Vec n) :
    ∀ fuel p_0 D_0 p D, clearing_loop fp Pi e p_bar fuel p_0 D_0 = some (p, D) →
      D = next_default_ind p Pi p_bar e := by
  intro fuel
  induction fuel with
  | zero =>
    intro p_0 D_0 p D h
    exact absurd h (by simp [clearing_loop])
  | succ m ih =>
    intro p_0 D_0 p D h
    rw [clearing_loop] at h
    split at h
    · have h2 := Option.some.inj h
      have key : (next_p fp p_0 D_0 Pi e p_bar).2
          = next_default_ind (next_p fp p_0 D_0 Pi e p_bar).1 Pi p_bar e := rfl
      calc D = (next_p fp p_0 D_0 Pi e p_bar).2 := by rw [h2]
        _ = next_default_ind (next_p fp p_0 D_0 Pi e p_bar).1 Pi p_bar e := key
        _ = next_default_ind p Pi p_bar e := by rw [h2]
    · exact ih _ _ _ _ h

/-- C8: the pair returned by `clearing_p` is a fixed point of the default-set
map: running `next_default_ind` once more on the returned payment vector `p`
gives back exactly the returned `D`. -/
theorem default_oracle_idempotent (fp : (Vec n → Vec n) → Vec n → Vec n) (fuel : ℕ)
    (L : Mat n) (e p D : Vec n) (h : clearing_p fp fuel L e = some (p, D)) :
    next_default_ind p (calc_Pi L) (calc_p_bar L) e = D :=
  (clearing_loop_ndi fp (calc_Pi L) e (calc_p_bar L) fuel (calc_p_bar L)
    (next_default_ind (calc_p_bar L) (calc_Pi L) (calc_p_bar L) e) p D h).symm

/-- Witness for C8 on a concrete run. -/
theorem default_oracle_idempotent_witness :
    next_default_ind (fun _ => 0) (calc_Pi ((fun _ _ => 0) : Mat 1))
        (calc_p_bar ((fun _ _ => 0) : Mat 1)) (fun _ => 1) = (fun _ => 0) :=
  default_oracle_idempotent (iterSolver 1) 1 (fun _ _ => 0) (fun _ => 1) (fun _ => 0)
    (fun _ => 0) (by decide)

/-- C7 (amended): with `L` all zero and `e` elementwise non-negative,
`p_bar` is all zero and `clearing_p` returns the all-zero payment and default
vectors (any inner iteration count `k ≥ 1`, any fuel `≥ 1`). -/
theorem clearing_p_zero_L_nonneg_e (k fuel : ℕ) (hk : 1 ≤ k) (hfuel : 1 ≤ fuel)
    (e : Vec n) (he : ∀ i, 0 ≤ e i) :
    calc_p_bar ((fun _ _ => 0) : Mat n) = (fun _ => 0) ∧
      clearing_p (iterSolver k) fuel (fun _ _ => 0) e
        = some ((fun _ => 0), (fun _ => 0)) := by
  have hpb : calc_p_bar ((fun _ _ => 0) : Mat n) = (fun _ => 0) := by
    funext i; simp [calc_p_bar]
  refine ⟨hpb, ?_⟩
  have hPi : calc_Pi ((fun _ _ => 0) : Mat n) = (fun _ _ => 0) := by
    funext i j; simp [calc_Pi]
  have hndi : ∀ p : Vec n,
      next_default_ind p ((fun _ _ => 0) : Mat n) (fun _ => 0) e = (fun _ => 0) := by
    intro p; funext i
    show next_default_ind p (fun _ _ => 0) (fun _ => 0) e i = 0
    rw [ndi_zero_iff]
    have hphi : Phi p ((fun _ _ => 0) : Mat n) (fun _ => 0) e i = 0 := by
      unfold Phi PiT_mul
      simp [min_eq_right (he i)]
    rw [hphi]
  have hFF0 : ∀ p q : Vec n, FF p q ((fun _ _ => 0) : Mat n) (fun _ => 0) e (fun _ => 0)
      = (fun _ => 0) := by
    intro p q; funext i; simp [FF, PiT_mul]
  have hit : iterSolver k
      (fun p => FF p (fun _ => 0) ((fun _ _ => 0) : Mat n) (fun _ => 0) e (fun _ => 0))
      (fun _ => 0) = (fun _ => 0) := by
    obtain ⟨m, rfl⟩ : ∃ m, k = m + 1 := ⟨k - 1, (Nat.succ_pred_eq_of_pos hk).symm⟩
    unfold iterSolver
    rw [Function.iterate_succ_apply', hFF0]
  show clearing_loop (iterSolver k) (calc_Pi (fun _ _ => 0)) e (calc_p_bar (fun _ _ => 0))
      fuel (calc_p_bar (fun _ _ => 0))
      (next_default_ind (calc_p_bar (fun _ _ => 0)) (calc_Pi (fun _ _ => 0))
        (calc_p_bar (fun _ _ => 0)) e)
      = some ((fun _ => 0), (fun _ => 0))
  rw [hpb, hPi, hndi]
  obtain ⟨m, rfl⟩ : ∃ m, fuel = m + 1 := ⟨fuel - 1, (Nat.succ_pred_eq_of_pos hfuel).symm⟩
  rw [clearing_loop]
  dsimp only [next_p]
  rw [hit, hndi, if_pos rfl]

/-- Witness for C7's amended statement at a concrete instance (`n = 1`,
`e = [5]`). -/
theorem clearing_p_zero_L_nonneg_e_witness :
    calc_p_bar ((fun _ _ => 0) : Mat 1) = (fun _ => 0) ∧
      clearing_p (iterSolver 1) 1 ((fun _ _ => 0) : Mat 1) (fun _ => 5)
        = some ((fun _ => 0), (fun _ => 0)) :=
  clearing_p_zero_L_nonneg_e 1 1 le_rfl le_rfl (fun _ => 5)
    (fun _ => (by decide : (0 : ℚ) ≤ 5))

/-! ## Monotone-decrease machinery for the outer loop -/

theorem boolVec_nonneg {D : Vec n} (h : boolVec D) (i : Fin n) : 0 ≤ D i := by
  rcases h i with h0 | h1
  · rw [h0]
  · rw [h1]; norm_num

theorem FFm_apply (Pi : Mat n) (D e p_bar p : Vec n) (i : Fin n) :
    FFm Pi D e p_bar p i
      = D i * (PiT_mul Pi (fun j => D j * p j + (1 - D j) * p_bar j) i + e i)
        + (1 - D i) * p_bar i := rfl

theorem FFm_zero (Pi : Mat n) (D e p_bar p : Vec n) (i : Fin n) (hD : D i = 0) :
    FFm Pi D e p_bar p i = p_bar i := by
  rw [FFm_apply, hD]; ring

theorem FFm_one (Pi : Mat n) (D e p_bar p : Vec n) (i : Fin n) (hD : D i = 1) :
    FFm Pi D e p_bar p i
      = PiT_mul Pi (fun j => D j * p j + (1 - D j) * p_bar j) i + e i := by
  rw [FFm_apply, hD]; ring

theorem PiT_mul_congr (Pi : Mat n) (u v : Vec n) (h : ∀ j, u j = v j) (i : Fin n) :
    PiT_mul Pi u i = PiT_mul Pi v i :=
  Finset.sum_congr rfl fun j _ => by rw [h j]

theorem FFm_mono (Pi : Mat n) (D e p_bar : Vec n) (hPi : ∀ i j, 0 ≤ Pi i j)
    (hD : boolVec D) (p q : Vec n) (hpq : ∀ j, p j ≤ q j) (i : Fin n) :
    FFm Pi D e p_bar p i ≤ FFm Pi D e p_bar q i := by
  rw [FFm_apply, FFm_apply]
  have hinner : ∀ j, D j * p j + (1 - D j) * p_bar j ≤ D j * q j + (1 - D j) * p_bar j :=
    fun j => add_le_add_right (mul_le_mul_of_nonneg_left (hpq j) (boolVec_nonneg hD j)) _
  have hsum := PiT_mul_mono Pi _ _ hPi hinner i
  exact add_le_add_right
    (mul_le_mul_of_nonneg_left (add_le_add_right hsum (e i)) (boolVec_nonneg hD i)) _

theorem iterate_antitone (F : Vec n → Vec n)
    (hmono : ∀ p q : Vec n, (∀ j, p j ≤ q j) → ∀ i, F p i ≤ F q i)
    (p : Vec n) (hdec : ∀ i, F p i ≤ p i) :
    ∀ m, ∀ i, F^[m + 1] p i ≤ F^[m] p i := by
  have hFdec : ∀ m, ∀ i, F (F^[m] p) i ≤ F^[m] p i := by
    intro m
    induction m with
    | zero => simpa using hdec
    | succ m ih =>
      intro i
      rw [Function.iterate_succ_apply']
      exact hmono _ _ ih i
  intro m i
  rw [Function.iterate_succ_apply']
  exact hFdec m i

theorem iterate_le_self (F : Vec n → Vec n)
    (hmono : ∀ p q : Vec n, (∀ j, p j ≤ q j) → ∀ i, F p i ≤ F q i)
    (p : Vec n) (hdec : ∀ i, F p i ≤ p i) :
    ∀ m, ∀ i, F^[m] p i ≤ p i := by
  intro m
  induction m with
  | zero => simp
  | succ m ih => intro i; exact le_trans (iterate_antitone F hmono p hdec m i) (ih i)

theorem iterate_coord_fixed (Pi : Mat n) (D e p_bar p : Vec n) (i : Fin n)
    (hD : D i = 0) : ∀ m, 1 ≤ m → (FFm Pi D e p_bar)^[m] p i = p_bar i := by
  intro m hm
  obtain ⟨m', rfl⟩ : ∃ m', m = m' + 1 := ⟨m - 1, (Nat.succ_pred_eq_of_pos hm).symm⟩
  rw [Function.iterate_succ_apply']
  exact FFm_zero _ _ _ _ _ _ hD

/-- One outer iteration with the inner solve modelled as `k ≥ 1` applications
of the frozen map preserves the loop invariant; moreover the default set can
only grow, and the payment vector can only decrease. -/
theorem inv_step (Pi : Mat n) (e p_bar : Vec n) (hPi : ∀ i j, 0 ≤ Pi i j)
    (k : ℕ) (hk : 1 ≤ k) (p D : Vec n) (h : LoopInv Pi e p_bar p D) :
    LoopInv Pi e p_bar ((FFm Pi D e p_bar)^[k] p)
        (next_default_ind ((FFm Pi D e p_bar)^[k] p) Pi p_bar e)
      ∧ (∀ i, D i = 1 → next_default_ind ((FFm Pi D e p_bar)^[k] p) Pi p_bar e i = 1)
      ∧ (∀ i, (FFm Pi D e p_bar)^[k] p i ≤ p i) := by
  have hmono := FFm_mono Pi D e p_bar hPi h.bool
  have hple : ∀ i, (FFm Pi D e p_bar)^[k] p i ≤ p i :=
    iterate_le_self _ hmono p h.dec k
  have hDD' : ∀ i, D i = 1 →
      next_default_ind ((FFm Pi D e p_bar)^[k] p) Pi p_bar e i = 1 := by
    intro i hi
    rw [ndi_one_iff]
    have h1 : Phi p Pi p_bar e i < p_bar i := by
      rw [← ndi_one_iff p Pi p_bar e i, ← h.ddef]
      exact hi
    exact lt_of_le_of_lt (Phi_mono Pi p_bar e _ p hPi hple i) h1
  have hfull' : ∀ i, next_default_ind ((FFm Pi D e p_bar)^[k] p) Pi p_bar e i = 0 →
      (FFm Pi D e p_bar)^[k] p i = p_bar i := by
    intro i h0
    have hDi : D i = 0 := by
      rcases h.bool i with hd0 | hd1
      · exact hd0
      · have := hDD' i hd1
        rw [h0] at this
        exact absurd this (by norm_num)
    exact iterate_coord_fixed Pi D e p_bar p i hDi k hk
  have hdec' : ∀ i,
      FFm Pi (next_default_ind ((FFm Pi D e p_bar)^[k] p) Pi p_bar e) e p_bar
        ((FFm Pi D e p_bar)^[k] p) i ≤ (FFm Pi D e p_bar)^[k] p i := by
    have key : ∀ j,
        next_default_ind ((FFm Pi D e p_bar)^[k] p) Pi p_bar e j
            * (FFm Pi D e p_bar)^[k] p j
          + (1 - next_default_ind ((FFm Pi D e p_bar)^[k] p) Pi p_bar e j) * p_bar j
        = (FFm Pi D e p_bar)^[k] p j := by
      intro j
      rcases ndi_bool ((FFm Pi D e p_bar)^[k] p) Pi p_bar e j with h0 | h1
      · rw [h0, hfull' j h0]; ring
      · rw [h1]; ring
    intro i
    rcases ndi_bool ((FFm Pi D e p_bar)^[k] p) Pi p_bar e i with h0 | h1
    · rw [FFm_zero _ _ _ _ _ _ h0]
      exact le_of_eq (hfull' i h0).symm
    · rw [FFm_one _ _ _ _ _ _ h1, PiT_mul_congr Pi _ _ key i]
      have hlt : Phi ((FFm Pi D e p_bar)^[k] p) Pi p_bar e i < p_bar i :=
        (ndi_one_iff _ _ _ _ i).mp h1
      unfold Phi at hlt
      have hPe : PiT_mul Pi ((FFm Pi D e p_bar)^[k] p) i + e i < p_bar i := by
        rcases min_lt_iff.mp hlt with hA | hB
        · exact hA
        · exact absurd hB (lt_irrefl _)
      rcases h.bool i with hD0 | hD1
      · rw [iterate_coord_fixed Pi D e p_bar p i hD0 k hk]
        exact hPe.le
      · obtain ⟨m, rfl⟩ : ∃ m, k = m + 1 := ⟨k - 1, (Nat.succ_pred_eq_of_pos hk).symm⟩
        have hstep : (FFm Pi D e p_bar)^[m + 1] p i
            = PiT_mul Pi
                (fun j => D j * (FFm Pi D e p_bar)^[m] p j + (1 - D j) * p_bar j) i
              + e i := by
          rw [Function.iterate_succ_apply']
          exact FFm_one _ _ _ _ _ _ hD1
        rw [hstep]
        apply add_le_add_right
        apply PiT_mul_mono Pi _ _ hPi _ i
        intro j
        rcases h.bool j with hj0 | hj1
        · have hfix := iterate_coord_fixed Pi D e p_bar p j hj0 (m + 1)
            (Nat.succ_le_succ (Nat.zero_le _))
          rw [hj0, hfix]
          have : (0 : ℚ) * (FFm Pi D e p_bar)^[m] p j + (1 - 0) * p_bar j = p_bar j := by
            ring
          rw [this]
        · rw [hj1]
          have : (1 : ℚ) * (FFm Pi D e p_bar)^[m] p j + (1 - 1) * p_bar j
              = (FFm Pi D e p_bar)^[m] p j := by ring
          rw [this]
          exact iterate_antitone _ hmono p h.dec m j
  exact ⟨⟨ndi_bool _ _ _ _, hfull', hdec', rfl⟩, hDD', hple⟩

theorem onesCount_le (D : Vec n) : onesCount D ≤ n := by
  unfold onesCount
  calc (Finset.univ.filter fun i => D i = 1).card
      ≤ Finset.univ.card := Finset.card_filter_le _ _
    _ = n := Finset.card_fin n

theorem onesCount_lt (D D' : Vec n) (hD : boolVec D) (hD' : boolVec D')
    (hmono : ∀ i, D i = 1 → D' i = 1) (hne : D' ≠ D) :
    onesCount D < onesCount D' := by
  unfold onesCount
  apply Finset.card_lt_card
  have hsub : (Finset.univ.filter fun i => D i = 1)
      ⊆ (Finset.univ.filter fun i => D' i = 1) := by
    intro i hi
    simp only [Finset.mem_filter, Finset.mem_univ, true_and] at hi ⊢
    exact hmono i hi
  rw [Finset.ssubset_iff_of_subset hsub]
  have hex : ∃ i, D' i ≠ D i := by
    by_contra hc
    push_neg at hc
    exact hne (funext hc)
  obtain ⟨i, hi⟩ := hex
  have hDi : D i = 0 := by
    rcases hD i with h0 | h1
    · exact h0
    · exact absurd (hmono i h1) (h1 ▸ hi)
  have hD'i : D' i = 1 := by
    rcases hD' i with h0 | h1
    · exact absurd (h0.trans hDi.symm) hi
    · exact h1
  refine ⟨i, ?_, ?_⟩
  · simp only [Finset.mem_filter, Finset.mem_univ, true_and]
    exact hD'i
  · simp only [Finset.mem_filter, Finset.mem_univ, true_and]
    rw [hDi]
    norm_num

theorem clearing_loop_isSome (Pi : Mat n) (e p_bar : Vec n) (hPi : ∀ i j, 0 ≤ Pi i j)
    (k : ℕ) (hk : 1 ≤ k) :
    ∀ fuel p D, LoopInv Pi e p_bar p D → n - onesCount D < fuel →
      (clearing_loop (iterSolver k) Pi e p_bar fuel p D).isSome = true := by
  intro fuel
  induction fuel with
  | zero => intro p D _ hf; omega
  | succ m ih =>
    intro p D hInv hf
    rw [clearing_loop]
    by_cases hstop : (next_p (iterSolver k) p D Pi e p_bar).2 = D
    · rw [if_pos hstop]; rfl
    · rw [if_neg hstop]
      have hpd1 : (next_p (iterSolver k) p D Pi e p_bar).1
          = (FFm Pi D e p_bar)^[k] p := rfl
      have hpd2 : (next_p (iterSolver k) p D Pi e p_bar).2
          = next_default_ind ((FFm Pi D e p_bar)^[k] p) Pi p_bar e := rfl
      obtain ⟨hInv', hmono', _⟩ := inv_step Pi e p_bar hPi k hk p D hInv
      apply ih _ _ (by rw [hpd1, hpd2]; exact hInv')
      have hlt : onesCount D
          < onesCount (next_p (iterSolver k) p D Pi e p_bar).2 := by
        rw [hpd2]
        refine onesCount_lt D _ hInv.bool (ndi_bool _ _ _ _) hmono' ?_
        rw [← hpd2]
        exact hstop
      have hle := onesCount_le (next_p (iterSolver k) p D Pi e p_bar).2
      omega

/-- C4: for a non-negative liability matrix and any asset vector, the outer
default-set loop of `clearing_p` (inner solve modelled as `k ≥ 1` iterations
of the frozen map) stabilises within `n + 1` outer iterations: fuel `n + 1`
is never exhausted. -/
theorem clearing_p_outer_loop_terminates (k : ℕ) (hk : 1 ≤ k) (L : Mat n) (e : Vec n)
    (hL : ∀ i j, 0 ≤ L i j) :
    (clearing_p (iterSolver k) (n + 1) L e).isSome = true := by
  have hpb : ∀ i, 0 ≤ calc_p_bar L i := fun i => Finset.sum_nonneg fun j _ => hL i j
  have hPi : ∀ i j, 0 ≤ calc_Pi L i j := by
    intro i j
    unfold calc_Pi
    split
    · exact div_nonneg (hL i j) (hpb i)
    · exact le_rfl
  have hInit : LoopInv (calc_Pi L) e (calc_p_bar L) (calc_p_bar L)
      (next_default_ind (calc_p_bar L) (calc_Pi L) (calc_p_bar L) e) := by
    refine ⟨ndi_bool _ _ _ _, fun i _ => rfl, ?_, rfl⟩
    intro i
    have hinner : ∀ j,
        next_default_ind (calc_p_bar L) (calc_Pi L) (calc_p_bar L) e j * calc_p_bar L j
          + (1 - next_default_ind (calc_p_bar L) (calc_Pi L) (calc_p_bar L) e j)
            * calc_p_bar L j
        = calc_p_bar L j := fun j => by ring
    rcases ndi_bool (calc_p_bar L) (calc_Pi L) (calc_p_bar L) e i with h0 | h1
    · rw [FFm_zero _ _ _ _ _ _ h0]
    · rw [FFm_one _ _ _ _ _ _ h1, PiT_mul_congr _ _ _ hinner i]
      have hlt := (ndi_one_iff (calc_p_bar L) (calc_Pi L) (calc_p_bar L) e i).mp h1
      unfold Phi at hlt
      rcases min_lt_iff.mp hlt with hA | hB
      · exact hA.le
      · exact absurd hB (lt_irrefl _)
  exact clearing_loop_isSome (calc_Pi L) e (calc_p_bar L) hPi k hk (n + 1) _ _ hInit
    (by
      have := onesCount_le
        (next_default_ind (calc_p_bar L) (calc_Pi L) (calc_p_bar L) e)
      omega)

/-- Witness for C4 at a concrete instance. -/
theorem clearing_p_outer_loop_terminates_witness :
    (clearing_p (iterSolver 1) 2 ((fun _ _ => 0) : Mat 1) (fun _ => 0)).isSome = true :=
  clearing_p_outer_loop_terminates 1 le_rfl (fun _ _ => 0) (fun _ => 0)
    (fun _ _ => le_rfl)

/-! ## Non-negativity of the iterates, and the shape of the returned pair -/

theorem boolVec_one_sub_nonneg {D : Vec n} (h : boolVec D) (i : Fin n) : 0 ≤ 1 - D i := by
  rcases h i with h0 | h1
  · rw [h0]; norm_num
  · rw [h1]; norm_num

theorem calc_p_bar_nonneg (L : Mat n) (hL : ∀ i j, 0 ≤ L i j) (i : Fin n) :
    0 ≤ calc_p_bar L i :=
  Finset.sum_nonneg fun j _ => hL i j

theorem calc_Pi_nonneg (L : Mat n) (hL : ∀ i j, 0 ≤ L i j) (i j : Fin n) :
    0 ≤ calc_Pi L i j := by
  unfold calc_Pi
  split
  · exact div_nonneg (hL i j) (calc_p_bar_nonneg L hL i)
  · exact le_rfl

/-- The state `(p_bar, next_default_ind p_bar ...)` entering the outer loop
satisfies the loop invariant. -/
theorem init_inv (L : Mat n) (e : Vec n) (_hL : ∀ i j, 0 ≤ L i j) :
    LoopInv (calc_Pi L) e (calc_p_bar L) (calc_p_bar L)
      (next_default_ind (calc_p_bar L) (calc_Pi L) (calc_p_bar L) e) := by
  refine ⟨ndi_bool _ _ _ _, fun i _ => rfl, ?_, rfl⟩
  intro i
  have hinner : ∀ j,
      next_default_ind (calc_p_bar L) (calc_Pi L) (calc_p_bar L) e j * calc_p_bar L j
        + (1 - next_default_ind (calc_p_bar L) (calc_Pi L) (calc_p_bar L) e j)
          * calc_p_bar L j
      = calc_p_bar L j := fun j => by ring
  rcases ndi_bool (calc_p_bar L) (calc_Pi L) (calc_p_bar L) e i with h0 | h1
  · rw [FFm_zero _ _ _ _ _ _ h0]
  · rw [FFm_one _ _ _ _ _ _ h1, PiT_mul_congr _ _ _ hinner i]
    have hlt := (ndi_one_iff (calc_p_bar L) (calc_Pi L) (calc_p_bar L) e i).mp h1
    unfold Phi at hlt
    rcases min_lt_iff.mp hlt with hA | hB
    · exact hA.le
    · exact absurd hB (lt_irrefl _)

theorem FFm_nonneg (Pi : Mat n) (D e p_bar : Vec n) (hPi : ∀ i j, 0 ≤ Pi i j)
    (hD : boolVec D) (hpb : ∀ i, 0 ≤ p_bar i) (he : ∀ i, 0 ≤ e i)
    (p : Vec n) (hp : ∀ i, 0 ≤ p i) (i : Fin n) : 0 ≤ FFm Pi D e p_bar p i := by
  rw [FFm_apply]
  have hinner : ∀ j, 0 ≤ D j * p j + (1 - D j) * p_bar j := by
    intro j
    rcases hD j with h0 | h1
    · rw [h0]
      have hval : (0 : ℚ) * p j + (1 - 0) * p_bar j = p_bar j := by ring
      rw [hval]; exact hpb j
    · rw [h1]
      have hval : (1 : ℚ) * p j + (1 - 1) * p_bar j = p j := by ring
      rw [hval]; exact hp j
  have hsum : 0 ≤ PiT_mul Pi (fun j => D j * p j + (1 - D j) * p_bar j) i :=
    Finset.sum_nonneg fun j _ => mul_nonneg (hPi j i) (hinner j)
  exact add_nonneg
    (mul_nonneg (boolVec_nonneg hD i) (add_nonneg hsum (he i)))
    (mul_nonneg (boolVec_one_sub_nonneg hD i) (hpb i))

theorem iterate_nonneg (Pi : Mat n) (D e p_bar : Vec n) (hPi : ∀ i j, 0 ≤ Pi i j)
    (hD : boolVec D) (hpb : ∀ i, 0 ≤ p_bar i) (he : ∀ i, 0 ≤ e i)
    (p : Vec n) (hp : ∀ i, 0 ≤ p i) :
    ∀ m i, 0 ≤ (FFm Pi D e p_bar)^[m] p i := by
  intro m
  induction m with
  | zero => simpa using hp
  | succ m ih =>
    intro i
    rw [Function.iterate_succ_apply']
    exact FFm_nonneg Pi D e p_bar hPi hD hpb he _ ih i

theorem clearing_loop_out (Pi : Mat n) (e p_bar : Vec n) (hPi : ∀ i j, 0 ≤ Pi i j)
    (k : ℕ) (hk : 1 ≤ k) :
    ∀ fuel p D pp DD, LoopInv Pi e p_bar p D →
      clearing_loop (iterSolver k) Pi e p_bar fuel p D = some (pp, DD) →
      LoopInv Pi e p_bar pp DD := by
  intro fuel
  induction fuel with
  | zero => intro p D pp DD _ h; exact absurd h (by simp [clearing_loop])
  | succ m ih =>
    intro p D pp DD hInv h
    rw [clearing_loop] at h
    obtain ⟨hInv', _, _⟩ := inv_step Pi e p_bar hPi k hk p D hInv
    have hpd1 : (next_p (iterSolver k) p D Pi e p_bar).1
        = (FFm Pi D e p_bar)^[k] p := rfl
    have hpd2 : (next_p (iterSolver k) p D Pi e p_bar).2
        = next_default_ind ((FFm Pi D e p_bar)^[k] p) Pi p_bar e := rfl
    split at h
    · have h2 := Option.some.inj h
      have hpp : pp = (next_p (iterSolver k) p D Pi e p_bar).1 := by rw [h2]
      have hDD : DD = (next_p (iterSolver k) p D Pi e p_bar).2 := by rw [h2]
      rw [hpp, hDD, hpd1, hpd2]
      exact hInv'
    · exact ih _ _ _ _ (by rw [hpd1, hpd2]; exact hInv') h

theorem clearing_loop_out_nonneg (Pi : Mat n) (e p_bar : Vec n)
    (hPi : ∀ i j, 0 ≤ Pi i j) (hpb : ∀ i, 0 ≤ p_bar i) (he : ∀ i, 0 ≤ e i)
    (k : ℕ) (hk : 1 ≤ k) :
    ∀ fuel p D pp DD, LoopInv Pi e p_bar p D → (∀ i, 0 ≤ p i) →
      clearing_loop (iterSolver k) Pi e p_bar fuel p D = some (pp, DD) →
      ∀ i, 0 ≤ pp i := by
  intro fuel
  induction fuel with
  | zero => intro p D pp DD _ _ h; exact absurd h (by simp [clearing_loop])
  | succ m ih =>
    intro p D pp DD hInv hp h
    rw [clearing_loop] at h
    obtain ⟨hInv', _, _⟩ := inv_step Pi e p_bar hPi k hk p D hInv
    have hnn' : ∀ i, 0 ≤ (FFm Pi D e p_bar)^[k] p i :=
      iterate_nonneg Pi D e p_bar hPi hInv.bool hpb he p hp k
    have hpd1 : (next_p (iterSolver k) p D Pi e p_bar).1
        = (FFm Pi D e p_bar)^[k] p := rfl
    have hpd2 : (next_p (iterSolver k) p D Pi e p_bar).2
        = next_default_ind ((FFm Pi D e p_bar)^[k] p) Pi p_bar e := rfl
    split at h
    · have h2 := Option.some.inj h
      have hpp : pp = (next_p (iterSolver k) p D Pi e p_bar).1 := by rw [h2]
      rw [hpp, hpd1]
      exact hnn'
    · exact ih _ _ _ _ (by rw [hpd1, hpd2]; exact hInv') (by rw [hpd1]; exact hnn') h

/-- At the returned pair, provided the final inner solve converged exactly,
payments are capped by obligations, default flags characterise strict
underpayment, and the payment vector is an Eisenberg-Noe clearing vector. -/
theorem output_fullpay_iff (Pi : Mat n) (e p_bar p D : Vec n)
    (hInv : LoopInv Pi e p_bar p D)
    (hexact : ∀ i, FFm Pi D e p_bar p i = p i) :
    (∀ i, p i ≤ p_bar i) ∧ (∀ i, (D i = 1 ↔ p i < p_bar i))
      ∧ (∀ i, p i = min (PiT_mul Pi p i + e i) (p_bar i)) := by
  have key : ∀ j, D j * p j + (1 - D j) * p_bar j = p j := by
    intro j
    rcases hInv.bool j with h0 | h1
    · rw [h0, hInv.fullpay j h0]; ring
    · rw [h1]; ring
  have hone : ∀ i, D i = 1 → p i = PiT_mul Pi p i + e i := by
    intro i h1
    have hx := hexact i
    rw [FFm_one _ _ _ _ _ _ h1, PiT_mul_congr Pi _ p key i] at hx
    exact hx.symm
  have hlt : ∀ i, D i = 1 → p i < p_bar i := by
    intro i h1
    have hndi : next_default_ind p Pi p_bar e i = 1 := by rw [← hInv.ddef]; exact h1
    have hphi := (ndi_one_iff p Pi p_bar e i).mp hndi
    unfold Phi at hphi
    have hPe : PiT_mul Pi p i + e i < p_bar i := by
      rcases min_lt_iff.mp hphi with hA | hB
      · exact hA
      · exact absurd hB (lt_irrefl _)
    rw [hone i h1]
    exact hPe
  refine ⟨?_, ?_, ?_⟩
  · intro i
    rcases hInv.bool i with h0 | h1
    · exact le_of_eq (hInv.fullpay i h0)
    · exact (hlt i h1).le
  · intro i
    constructor
    · exact hlt i
    · intro hpi
      rcases hInv.bool i with h0 | h1
      · exact absurd hpi (by rw [hInv.fullpay i h0]; exact lt_irrefl _)
      · exact h1
  · intro i
    rcases hInv.bool i with h0 | h1
    · have hndi : next_default_ind p Pi p_bar e i = 0 := by rw [← hInv.ddef]; exact h0
      have hge := (ndi_zero_iff p Pi p_bar e i).mp hndi
      unfold Phi at hge
      have hPe : p_bar i ≤ PiT_mul Pi p i + e i := le_trans hge (min_le_left _ _)
      rw [hInv.fullpay i h0, min_eq_right hPe]
    · have hndi : next_default_ind p Pi p_bar e i = 1 := by rw [← hInv.ddef]; exact h1
      have hphi := (ndi_one_iff p Pi p_bar e i).mp hndi
      unfold Phi at hphi
      have hPe : PiT_mul Pi p i + e i < p_bar i := by
        rcases min_lt_iff.mp hphi with hA | hB
        · exact hA
        · exact absurd hB (lt_irrefl _)
      rw [hone i h1, min_eq_left hPe.le]

/-- C1 (amended): with `L` non-negative and `e` elementwise non-negative, any
pair `(p, D)` returned by `clearing_p` whose final inner solve converged to an
exact fixed point satisfies `0 ≤ p[i] ≤ p_bar[i]` and `D[i] = 1 ↔
p[i] < p_bar[i]` for every `i`. -/
theorem clearing_p_output_invariant (k fuel : ℕ) (hk : 1 ≤ k) (L : Mat n) (e : Vec n)
    (hL : ∀ i j, 0 ≤ L i j) (he : ∀ i, 0 ≤ e i) (p D : Vec n)
    (hrun : clearing_p (iterSolver k) fuel L e = some (p, D))
    (hexact : ∀ i, FFm (calc_Pi L) D e (calc_p_bar L) p i = p i) :
    ∀ i, 0 ≤ p i ∧ p i ≤ calc_p_bar L i ∧ (D i = 1 ↔ p i < calc_p_bar L i) := by
  have hpb := calc_p_bar_nonneg L hL
  have hPi := calc_Pi_nonneg L hL
  have hInv := clearing_loop_out (calc_Pi L) e (calc_p_bar L) hPi k hk fuel _ _ p D
    (init_inv L e hL) hrun
  have hnn := clearing_loop_out_nonneg (calc_Pi L) e (calc_p_bar L) hPi hpb he k hk
    fuel _ _ p D (init_inv L e hL) hpb hrun
  obtain ⟨hle, hiff, _⟩ := output_fullpay_iff (calc_Pi L) e (calc_p_bar L) p D hInv hexact
  exact fun i => ⟨hnn i, hle i, hiff i⟩

/-- Witness for C1's amended statement on a concrete run. -/
theorem clearing_p_output_invariant_witness :
    0 ≤ (0 : ℚ) ∧ (0 : ℚ) ≤ calc_p_bar ((fun _ _ => 0) : Mat 1) 0 ∧
      ((0 : ℚ) = 1 ↔ (0 : ℚ) < calc_p_bar ((fun _ _ => 0) : Mat 1) 0) :=
  clearing_p_output_invariant 1 1 le_rfl (fun _ _ => 0) (fun _ => 0)
    (fun _ _ => le_rfl) (fun _ => le_rfl) (fun _ => 0) (fun _ => 0)
    (by decide) (by decide) 0

/-! ## The LP solver (C3) -/

theorem LP_A_row (Pi : Mat n) (x : Vec n) (i : Fin n) :
    ∑ j, LP_A Pi i j * x j = x i - PiT_mul Pi x i := by
  have hterm : ∀ j, LP_A Pi i j * x j
      = (if i = j then x j else 0) - Pi j i * x j := by
    intro j
    unfold LP_A
    by_cases h : i = j <;> simp [h, sub_mul]
  calc ∑ j, LP_A Pi i j * x j
      = ∑ j, ((if i = j then x j else 0) - Pi j i * x j) :=
        Finset.sum_congr rfl fun j _ => hterm j
    _ = (∑ j, if i = j then x j else 0) - ∑ j, Pi j i * x j :=
        Finset.sum_sub_distrib
    _ = x i - PiT_mul Pi x i := by
        rw [Finset.sum_ite_eq]
        simp [PiT_mul]

theorem LP_feasible_iff (Pi : Mat n) (p_bar e x : Vec n) :
    LP_feasible Pi p_bar e x ↔
      ∀ i, 0 ≤ x i ∧ x i ≤ p_bar i ∧ x i ≤ PiT_mul Pi x i + e i := by
  unfold LP_feasible
  apply forall_congr'
  intro i
  rw [LP_A_row, sub_le_iff_le_add, add_comm (e i)]

theorem PiT_mul_nonneg (Pi : Mat n) (x : Vec n) (hPi : ∀ i j, 0 ≤ Pi i j)
    (hx : ∀ i, 0 ≤ x i) (i : Fin n) : 0 ≤ PiT_mul Pi x i :=
  Finset.sum_nonneg fun j _ => mul_nonneg (hPi j i) (hx j)

/-- An optimal point of the LP built by `clearing_p_LP` is an Eisenberg-Noe
clearing vector: applying the available-funds map to it can only increase it
while preserving feasibility, and optimality then forces equality.  No sign
condition on `e` is needed: `0 ≤ x ≤ Phi x` already holds by feasibility. -/
theorem LP_optimal_isClearingVec (Pi : Mat n) (p_bar e x : Vec n)
    (hPi : ∀ i j, 0 ≤ Pi i j)
    (hx : LP_optimal Pi p_bar e x) : isClearingVec Pi p_bar e x := by
  obtain ⟨hfeas0, hopt⟩ := hx
  have hfeas := (LP_feasible_iff Pi p_bar e x).mp hfeas0
  have hxy : ∀ i, x i ≤ Phi x Pi p_bar e i := fun i =>
    le_min (hfeas i).2.2 (hfeas i).2.1
  have hyfeas : LP_feasible Pi p_bar e (Phi x Pi p_bar e) := by
    rw [LP_feasible_iff]
    intro i
    refine ⟨le_trans (hfeas i).1 (hxy i), min_le_right _ _, ?_⟩
    exact le_trans (min_le_left _ _)
      (add_le_add_right (PiT_mul_mono Pi x _ hPi hxy i) (e i))
  have hsum_le : ∑ i, x i ≤ ∑ i, Phi x Pi p_bar e i :=
    Finset.sum_le_sum fun i _ => hxy i
  have hsum_eq : ∑ i, x i = ∑ i, Phi x Pi p_bar e i :=
    le_antisymm hsum_le (hopt _ hyfeas)
  have hxeqy : ∀ i, x i = Phi x Pi p_bar e i := by
    have hall := (Finset.sum_eq_sum_iff_of_le (fun i _ => hxy i)).mp hsum_eq
    exact fun i => hall i (Finset.mem_univ i)
  exact ⟨fun i => ⟨(hfeas i).1, (hfeas i).2.1⟩, fun i => hxeqy i⟩

/-- The frozen inner map keeps every coordinate above any Eisenberg-Noe
clearing vector `q`, for any 0/1-valued default indicator: non-defaulting
coordinates are set to `p_bar ≥ q`, and defaulting coordinates receive at
least the inflow generated by `q` itself. -/
theorem FFm_ge_clearing (Pi : Mat n) (D e p_bar q : Vec n) (hPi : ∀ i j, 0 ≤ Pi i j)
    (hD : boolVec D) (hq : isClearingVec Pi p_bar e q)
    (p : Vec n) (hp : ∀ i, q i ≤ p i) (i : Fin n) : q i ≤ FFm Pi D e p_bar p i := by
  rcases hD i with h0 | h1
  · rw [FFm_zero _ _ _ _ _ _ h0]
    exact (hq.1 i).2
  · rw [FFm_one _ _ _ _ _ _ h1]
    have hinner : ∀ j, q j ≤ D j * p j + (1 - D j) * p_bar j := by
      intro j
      rcases hD j with hj0 | hj1
      · rw [hj0]
        have hval : (0 : ℚ) * p j + (1 - 0) * p_bar j = p_bar j := by ring
        rw [hval]; exact (hq.1 j).2
      · rw [hj1]
        have hval : (1 : ℚ) * p j + (1 - 1) * p_bar j = p j := by ring
        rw [hval]; exact hp j
    have hqi : q i ≤ PiT_mul Pi q i + e i := by
      rw [hq.2 i]; exact min_le_left _ _
    exact le_trans hqi
      (add_le_add_right (PiT_mul_mono Pi q _ hPi hinner i) (e i))

theorem iterate_ge_clearing (Pi : Mat n) (D e p_bar q : Vec n) (hPi : ∀ i j, 0 ≤ Pi i j)
    (hD : boolVec D) (hq : isClearingVec Pi p_bar e q)
    (p : Vec n) (hp : ∀ i, q i ≤ p i) :
    ∀ m i, q i ≤ (FFm Pi D e p_bar)^[m] p i := by
  intro m
  induction m with
  | zero => simpa using hp
  | succ m ih =>
    intro i
    rw [Function.iterate_succ_apply']
    exact FFm_ge_clearing Pi D e p_bar q hPi hD hq _ ih i

theorem clearing_loop_out_ge (Pi : Mat n) (e p_bar q : Vec n) (hPi : ∀ i j, 0 ≤ Pi i j)
    (hq : isClearingVec Pi p_bar e q) (k : ℕ) :
    ∀ fuel p D pp DD, boolVec D → (∀ i, q i ≤ p i) →
      clearing_loop (iterSolver k) Pi e p_bar fuel p D = some (pp, DD) →
      ∀ i, q i ≤ pp i := by
  intro fuel
  induction fuel with
  | zero => intro p D pp DD _ _ h; exact absurd h (by simp [clearing_loop])
  | succ m ih =>
    intro p D pp DD hD hp h
    rw [clearing_loop] at h
    have hge' : ∀ i, q i ≤ (FFm Pi D e p_bar)^[k] p i :=
      iterate_ge_clearing Pi D e p_bar q hPi hD hq p hp k
    have hpd1 : (next_p (iterSolver k) p D Pi e p_bar).1
        = (FFm Pi D e p_bar)^[k] p := rfl
    have hpd2 : (next_p (iterSolver k) p D Pi e p_bar).2
        = next_default_ind ((FFm Pi D e p_bar)^[k] p) Pi p_bar e := rfl
    split at h
    · have h2 := Option.some.inj h
      have hpp : pp = (next_p (iterSolver k) p D Pi e p_bar).1 := by rw [h2]
      rw [hpp, hpd1]
      exact hge'
    · exact ih _ _ _ _ (by rw [hpd2]; exact ndi_bool _ _ _ _) (by rw [hpd1]; exact hge') h

/-- C3: on an instance whose clearing payment vector is unique (`L` non-negative
as well-formedness requires, `e` arbitrary), the fixed-point solver `clearing_p`
(final inner solve converged exactly) and the LP solver `clearing_p_LP`
(backend returned an optimal point of the LP the code builds) return exactly
the same pair — in particular the payment vectors coincide, hence agree within
any tolerance. -/
theorem solver_agreement (k fuel : ℕ) (hk : 1 ≤ k) (L : Mat n) (e : Vec n)
    (hL : ∀ i j, 0 ≤ L i j) (p D : Vec n)
    (hrun : clearing_p (iterSolver k) fuel L e = some (p, D))
    (hexact : ∀ i, FFm (calc_Pi L) D e (calc_p_bar L) p i = p i)
    (lp : LPSolver n)
    (hopt : LP_optimal (calc_Pi L) (calc_p_bar L) e
      ((lp (fun _ => -1) (LP_A (calc_Pi L)) e ((fun _ => 0), calc_p_bar L)).x))
    (huniq : ∀ q q', isClearingVec (calc_Pi L) (calc_p_bar L) e q →
      isClearingVec (calc_Pi L) (calc_p_bar L) e q' → q = q') :
    clearing_p_LP lp L e = (p, D) := by
  have hPi := calc_Pi_nonneg L hL
  have hInv := clearing_loop_out (calc_Pi L) e (calc_p_bar L) hPi k hk fuel _ _ p D
    (init_inv L e hL) hrun
  obtain ⟨hle, _, hclr⟩ := output_fullpay_iff (calc_Pi L) e (calc_p_bar L) p D hInv hexact
  have hxclear := LP_optimal_isClearingVec (calc_Pi L) (calc_p_bar L) e _ hPi hopt
  have hpgex : ∀ i,
      (lp (fun _ => -1) (LP_A (calc_Pi L)) e ((fun _ => 0), calc_p_bar L)).x i ≤ p i :=
    clearing_loop_out_ge (calc_Pi L) e (calc_p_bar L) _ hPi hxclear k fuel _ _ p D
      (ndi_bool _ _ _ _) (fun i => (hxclear.1 i).2) hrun
  have hnn : ∀ i, 0 ≤ p i := fun i => le_trans (hxclear.1 i).1 (hpgex i)
  have hpclear : isClearingVec (calc_Pi L) (calc_p_bar L) e p :=
    ⟨fun i => ⟨hnn i, hle i⟩, hclr⟩
  have hxp : (lp (fun _ => -1) (LP_A (calc_Pi L)) e ((fun _ => 0), calc_p_bar L)).x = p :=
    huniq _ _ hxclear hpclear
  have hD := clearing_loop_ndi (iterSolver k) (calc_Pi L) e (calc_p_bar L) fuel _ _ p D hrun
  show ((lp (fun _ => -1) (LP_A (calc_Pi L)) e ((fun _ => 0), calc_p_bar L)).x,
      next_default_ind
        ((lp (fun _ => -1) (LP_A (calc_Pi L)) e ((fun _ => 0), calc_p_bar L)).x)
        (calc_Pi L) (calc_p_bar L) e) = (p, D)
  rw [hxp, ← hD]

/-- Witness for C3 on a concrete instance with a negative asset entry
(`n = 2`, `L = [[0,1],[0,0]]`, `e = (7/10, -1/2)`): the unique clearing vector
is `(7/10, 0)` and both solvers return it, with node `1` in default. -/
theorem solver_agreement_witness :
    clearing_p_LP (fun _ _ _ _ => ⟨![7/10, 0], 0⟩) (![![0, 1], ![0, 0]] : Mat 2)
      (![7/10, -1/2]) = (![7/10, 0], ![1, 0]) := by
  have hPT0 : ∀ y : Vec 2, PiT_mul (calc_Pi (![![0, 1], ![0, 0]] : Mat 2)) y 0 = 0 := by
    intro y
    unfold PiT_mul
    rw [Fin.sum_univ_two]
    have h0 : calc_Pi (![![0, 1], ![0, 0]] : Mat 2) 0 0 = 0 := by decide
    have h1 : calc_Pi (![![0, 1], ![0, 0]] : Mat 2) 1 0 = 0 := by decide
    rw [h0, h1]
    ring
  have hpb0 : calc_p_bar (![![0, 1], ![0, 0]] : Mat 2) 0 = 1 := by decide
  have hpb1 : calc_p_bar (![![0, 1], ![0, 0]] : Mat 2) 1 = 0 := by decide
  have key : ∀ r : Vec 2,
      isClearingVec (calc_Pi (![![0, 1], ![0, 0]] : Mat 2))
        (calc_p_bar (![![0, 1], ![0, 0]] : Mat 2)) (![7/10, -1/2]) r →
      r 0 = 7 / 10 ∧ r 1 = 0 := by
    intro r hr
    have hr1 : r 1 = 0 := le_antisymm (le_of_le_of_eq (hr.1 1).2 hpb1) (hr.1 1).1
    have hr0 : r 0 = 7 / 10 := by
      have hfix := hr.2 0
      rw [hPT0 r, hpb0] at hfix
      rw [hfix]
      decide
    exact ⟨hr0, hr1⟩
  refine solver_agreement 1 1 le_rfl (![![0, 1], ![0, 0]]) (![7/10, -1/2]) (by decide)
    (![7/10, 0]) (![1, 0]) (by decide) (by decide)
    (fun _ _ _ _ => ⟨![7/10, 0], 0⟩) ⟨?_, ?_⟩ ?_
  · rw [LP_feasible_iff]
    decide
  · intro y hy
    have hy' := (LP_feasible_iff _ _ _ _).mp hy
    have hy1 : y 1 ≤ 0 := le_of_le_of_eq (hy' 1).2.1 hpb1
    have hy0 : y 0 ≤ 7 / 10 := by
      have hc := (hy' 0).2.2
      rw [hPT0 y] at hc
      simpa using hc
    rw [Fin.sum_univ_two, Fin.sum_univ_two]
    show y 0 + y 1 ≤ (7 : ℚ) / 10 + 0
    linarith
  · intro q q' hq hq'
    obtain ⟨hq0, hq1⟩ := key q hq
    obtain ⟨hq0', hq1'⟩ := key q' hq'
    funext i
    fin_cases i
    · show q 0 = q' 0
      rw [hq0, hq0']
    · show q 1 = q' 1
      rw [hq1, hq1']

end EN
